import Mathlib

/-!
Verification of the log-record reconciliation pipeline and the recursive-call
graph query of the software-analytics notebooks.

The reconciliation pipeline is the pandas fragment

  commits = commits_raw[['additions', 'deletions', 'filename']]
              .join(commits_raw[['sha', 'timestamp', 'author', 'message']]
                      .fillna(method='ffill'))
  commits = commits.dropna()

over a table `commits_raw` whose rows come from the tab-separated git log
export: metadata rows carry `sha, timestamp, author, message` and leave the
three file columns missing, statistic rows carry `additions, deletions,
filename` and leave the four metadata columns missing.  Cells are nullable
(`Option`); `fillna(method='ffill')` forward-fills each of the four metadata
columns independently, `join` recombines the three untouched file columns with
the filled metadata columns by row index, and `dropna` keeps exactly the rows
in which all seven cells are populated.

The graph query is the Cypher statement

  MATCH (m:Method)-[:INVOKES*]->(m)
     -[:INVOKES]->(dbMethod:Method)
        <-[:DECLARES]-(dbClass:Class)
  WHERE dbClass.name = "Database"
  RETURN m.name as caller, dbClass.name + "." + dbMethod.name as dbMethod

modelled over a finite property graph, including Cypher's relationship
uniqueness (one relationship may be traversed at most once inside a single
MATCH pattern).
-/

/-- A cell value of the DataFrame: the columns hold either numbers
(additions, deletions, timestamp) or strings (filename, sha, author,
message); a missing cell is `none` at the `Option Val` level. -/
inductive Val where
  | int : Int → Val
  | str : String → Val
deriving DecidableEq

/-- One row of the seven-column table produced by
`pd.read_csv(..., names=['additions', 'deletions', 'filename', 'sha',
'timestamp', 'author', 'message'])`; every cell is nullable. -/
structure Row where
  additions : Option Val
  deletions : Option Val
  filename : Option Val
  sha : Option Val
  timestamp : Option Val
  author : Option Val
  message : Option Val
deriving DecidableEq

/-- The forward-fill carry of the four metadata columns
`['sha', 'timestamp', 'author', 'message']`: the last non-null value seen so
far in each column, independently per column. -/
structure MetaState where
  sha : Option Val
  timestamp : Option Val
  author : Option Val
  message : Option Val
deriving DecidableEq

/-- Carry update of `fillna(method='ffill')` for a single cell: a non-null
cell replaces the carried value, a null cell keeps it. -/
def upd (new old : Option Val) : Option Val :=
  match new with
  | some v => some v
  | none => old

/-- Per-column forward-fill step over one row: each of the four metadata
columns is updated from its own cell only. -/
def ffillStep (st : MetaState) (r : Row) : MetaState :=
  { sha := upd r.sha st.sha
    timestamp := upd r.timestamp st.timestamp
    author := upd r.author st.author
    message := upd r.message st.message }

/-- The carry before any row has been seen: every metadata column empty. -/
def initMeta : MetaState := ⟨none, none, none, none⟩

/-- The composite
`commits_raw[['additions', 'deletions', 'filename']].join(commits_raw[['sha',
'timestamp', 'author', 'message']].fillna(method='ffill'))`: row `i` of the
result keeps row `i`'s file cells untouched and carries the forward-filled
metadata cells at row `i`. -/
def joinFfill : MetaState → List Row → List Row
  | _, [] => []
  | st, r :: rs =>
    let st' := ffillStep st r
    { r with
        sha := st'.sha, timestamp := st'.timestamp,
        author := st'.author, message := st'.message } :: joinFfill st' rs

/-- A row every cell of which is populated; `commits.dropna()` keeps exactly
these rows. -/
def rowComplete (r : Row) : Bool :=
  r.additions.isSome && r.deletions.isSome && r.filename.isSome &&
  r.sha.isSome && r.timestamp.isSome && r.author.isSome && r.message.isSome

/-- The `commits.dropna()` step: drop every row that still has a null cell. -/
def dropna (rows : List Row) : List Row := rows.filter rowComplete

/-- The whole reconciliation pipeline of the notebook: forward-fill the
metadata columns, join with the file columns, drop incomplete rows. -/
def reconcile (rows : List Row) : List Row := dropna (joinFfill initMeta rows)

/-- A well-formed input line of the git log export: a metadata line
(`sha, timestamp, author, message`, no file statistics) or a statistic line
(`additions, deletions, filename`, no metadata). -/
inductive Line where
  | meta : Val → Val → Val → Val → Line
  | stat : Val → Val → Val → Line
deriving DecidableEq

/-- The seven-column row a line parses into: the cells of the other shape are
null, exactly as `read_csv` leaves the short columns of each line empty. -/
def Line.toRow : Line → Row
  | .meta s t a m => ⟨none, none, none, some s, some t, some a, some m⟩
  | .stat ad de f => ⟨some ad, some de, some f, none, none, none, none⟩

/-- Whether a line is a metadata line. -/
def Line.isMeta : Line → Bool
  | .meta _ _ _ _ => true
  | .stat _ _ _ => false

/-- Whether a line is a statistic line. -/
def Line.isStat : Line → Bool
  | .meta _ _ _ _ => false
  | .stat _ _ _ => true

/-- The reconciliation pipeline run on a list of well-formed lines. -/
def reconcileLines (ls : List Line) : List Row :=
  reconcile (ls.map Line.toRow)

/-- The three file cells of a row, in column order. -/
def fileFields (r : Row) : Option Val × Option Val × Option Val :=
  (r.additions, r.deletions, r.filename)

/-- The three file cells a line contributes (null for a metadata line). -/
def Line.statFields : Line → Option Val × Option Val × Option Val
  | .meta _ _ _ _ => (none, none, none)
  | .stat ad de f => (some ad, some de, some f)

/-- Reference fold used only to reason about `reconcile`: scan the lines in
order carrying the current metadata, emit one full record per statistic line
once metadata is available.  It is proved equal to the pipeline below. -/
def scanRef : Option (Val × Val × Val × Val) → List Line → List Row
  | _, [] => []
  | _, Line.meta s t a m :: ls => scanRef (some (s, t, a, m)) ls
  | none, Line.stat _ _ _ :: ls => scanRef none ls
  | some (s, t, a, m), Line.stat ad de f :: ls =>
      ⟨some ad, some de, some f, some s, some t, some a, some m⟩ ::
        scanRef (some (s, t, a, m)) ls

/-- Metadata-carry update contributed by one line. -/
def updMeta (cur : Option (Val × Val × Val × Val)) : Line →
    Option (Val × Val × Val × Val)
  | Line.meta s t a m => some (s, t, a, m)
  | Line.stat _ _ _ => cur

/-- The metadata carry after scanning a list of lines. -/
def curMeta : Option (Val × Val × Val × Val) → List Line →
    Option (Val × Val × Val × Val)
  | cur, [] => cur
  | cur, l :: ls => curMeta (updMeta cur l) ls

/-- The last non-null value of one column over a list of cells, starting from
a carried value: the per-column meaning of `fillna(method='ffill')`. -/
def lastSome : Option Val → List (Option Val) → Option Val
  | st, [] => st
  | st, v :: vs => lastSome (upd v st) vs

/-- Shape a cell must have to be readable as an integer: `read_csv` parses
the timestamp column's populated cells as integers. -/
def intOfVal : Val → Option Int
  | .int n => some n
  | .str _ => none

/-- The timestamp column of the raw seven-column table built from the input
lines, as `read_csv` sees it: one cell per line, populated on metadata lines
and missing on statistic lines. -/
def tsCol (ls : List Line) : List (Option Int) :=
  (ls.map Line.toRow).map fun r => r.timestamp.bind intOfVal

/-- Storage dtype of a pandas column relevant here. -/
inductive Dtype where
  | int64 : Dtype
  | float64 : Dtype
deriving DecidableEq

/-- Dtype `read_csv` infers for a column whose populated cells are integers:
with no missing cell the column is int64; any missing cell forces the whole
column to float64 (NaN is a float), coercing the integers to floats.  The
notebook's recorded output shows exactly this: the commit timestamps, exported
as integer epoch seconds, display as `1.498817e+09` in `commits_raw` and in
every later table. -/
def intColDtype (col : List (Option Int)) : Dtype :=
  if col.any fun v => v.isNone then Dtype.float64 else Dtype.int64

/-- A fully populated row, used as a concrete witness input. -/
def fullRow : Row :=
  ⟨some (.int 1), some (.int 2), some (.str "f"), some (.str "s"),
   some (.int 3), some (.str "a"), some (.str "m")⟩

/-- The concrete example input of the specification:
`[M(id=1,ts=100,author=A,msg="x"), S(+2,-1,"f.txt"),
M(id=2,ts=200,author=B,msg="y"), S(+5,-0,"g.txt")]`. -/
def exampleLines : List Line :=
  [Line.meta (.int 1) (.int 100) (.str "A") (.str "x"),
   Line.stat (.int 2) (.int 1) (.str "f.txt"),
   Line.meta (.int 2) (.int 200) (.str "B") (.str "y"),
   Line.stat (.int 5) (.int 0) (.str "g.txt")]

/-- A fully populated metadata row (author "Ann"). -/
def mixMetaFull : Row :=
  Line.toRow (Line.meta (.str "sha1") (.int 100) (.str "Ann") (.str "first"))

/-- A metadata row whose author cell is missing, the other three metadata
cells populated. -/
def mixMetaGap : Row :=
  ⟨none, none, none, some (.str "sha2"), some (.int 200), none,
   some (.str "second")⟩

/-- A statistic row following the two metadata rows above. -/
def mixStat : Row :=
  Line.toRow (Line.stat (.int 3) (.int 4) (.str "pom.xml"))

/-- A node of the property graph scanned by the jQAssistant query: its id,
whether it carries the `Method` label, whether it carries the `Class` label,
and its `name` property. -/
structure GNode where
  id : Nat
  isMethod : Bool
  isClass : Bool
  name : String
deriving DecidableEq

/-- The property graph: nodes plus the `INVOKES` and `DECLARES` relationship
multisets (a list entry per relationship; parallel relationships between the
same endpoints are distinct entries). -/
structure Graph where
  nodes : List GNode
  invokes : List (Nat × Nat)
  declares : List (Nat × Nat)
deriving DecidableEq

/-- Removal of one occurrence of a relationship from a relationship list,
used to mark it as consumed inside one MATCH pattern. -/
def removeOne : List (Nat × Nat) → Nat × Nat → List (Nat × Nat)
  | [], _ => []
  | e :: es, x => if e = x then es else e :: removeOne es x

/-- Search for a non-empty `INVOKES` chain from `a` to `b` among the still
available relationships, consuming each traversed relationship, as Cypher's
`-[:INVOKES*]->` does under its relationship-uniqueness rule (a relationship
may be traversed at most once inside one MATCH pattern).  The fuel only
bounds the recursion; any chain of distinct relationships has length at most
the number of available relationships. -/
def chainSearchF : Nat → List (Nat × Nat) → Nat → Nat → Bool
  | 0, _, _, _ => false
  | fuel + 1, avail, a, b =>
      avail.any fun e =>
        decide (e.1 = a) && (decide (e.2 = b) ||
          chainSearchF fuel (removeOne avail e) e.2 b)

/-- One assignment of the MATCH pattern
`(m:Method)-[:INVOKES*]->(m)-[:INVOKES]->(dbMethod:Method)
<-[:DECLARES]-(dbClass:Class) WHERE dbClass.name = "Database"`: the label and
name tests, the single `INVOKES` relationship to the database method, the
`DECLARES` relationship, and a self-reaching `INVOKES` chain that does not
reuse the relationship already consumed to reach the database method. -/
def matchPattern (g : Graph) (m dbM dbC : GNode) : Bool :=
  m.isMethod && dbM.isMethod && dbC.isClass &&
  decide (dbC.name = "Database") &&
  decide ((m.id, dbM.id) ∈ g.invokes) &&
  decide ((dbC.id, dbM.id) ∈ g.declares) &&
  chainSearchF g.invokes.length (removeOne g.invokes (m.id, dbM.id)) m.id m.id

/-- The rows the query returns:
`RETURN m.name as caller, dbClass.name + "." + dbMethod.name as dbMethod`
over all assignments of the pattern. -/
def queryPairs (g : Graph) : List (String × String) :=
  g.nodes.flatMap fun m =>
    g.nodes.flatMap fun dbM =>
      g.nodes.flatMap fun dbC =>
        if matchPattern g m dbM dbC then
          [(m.name, dbC.name ++ "." ++ dbM.name)] else []

/-- One `INVOKES` relationship viewed as a step relation on node ids. -/
def invokesStep (g : Graph) (a b : Nat) : Prop := (a, b) ∈ g.invokes

/-- The claim's description of the returned set: caller is the name of a
method that invokes itself via a non-empty chain of `INVOKES` edges (directly
or transitively) and that also invokes a method declared by a class named
"Database"; the second component is "Database." followed by that method's
name.  No restriction on reusing a relationship. -/
def claimPair (g : Graph) (p : String × String) : Prop :=
  ∃ m dbM dbC : GNode, m ∈ g.nodes ∧ dbM ∈ g.nodes ∧ dbC ∈ g.nodes ∧
    m.isMethod = true ∧ dbM.isMethod = true ∧ dbC.isClass = true ∧
    dbC.name = "Database" ∧
    Relation.TransGen (invokesStep g) m.id m.id ∧
    (m.id, dbM.id) ∈ g.invokes ∧
    (dbC.id, dbM.id) ∈ g.declares ∧
    p = (m.name, "Database." ++ dbM.name)

/-- A list of relationships forming a chain from `a` to `b`, each starting
where the previous one ended. -/
def isChain : List (Nat × Nat) → Nat → Nat → Prop
  | [], a, b => a = b
  | e :: c, a, b => e.1 = a ∧ isChain c e.2 b

/-- The set of pairs the query actually returns, described declaratively:
as `claimPair`, except that the self-invocation chain must consist of
pairwise-distinct `INVOKES` relationships which also avoid the relationship
used to reach the database method (sub-multiset condition), per Cypher's
relationship-uniqueness rule. -/
def patternPair (g : Graph) (p : String × String) : Prop :=
  ∃ m dbM dbC : GNode, m ∈ g.nodes ∧ dbM ∈ g.nodes ∧ dbC ∈ g.nodes ∧
    m.isMethod = true ∧ dbM.isMethod = true ∧ dbC.isClass = true ∧
    dbC.name = "Database" ∧
    (m.id, dbM.id) ∈ g.invokes ∧
    (dbC.id, dbM.id) ∈ g.declares ∧
    (∃ c : List (Nat × Nat), c ≠ [] ∧ isChain c m.id m.id ∧
      List.Subperm ((m.id, dbM.id) :: c) g.invokes) ∧
    p = (m.name, dbC.name ++ "." ++ dbM.name)

/-- Concrete graph: `loadParent` and `loadThing` invoke each other, and
`loadThing` is declared by the class `Database`.  The only self-reaching
chain of `loadParent` consumes the `INVOKES` relationship to `loadThing`. -/
def g0 : Graph :=
  ⟨[⟨1, true, false, "loadParent"⟩, ⟨2, true, false, "loadThing"⟩,
    ⟨3, false, true, "Database"⟩],
   [(1, 2), (2, 1)], [(3, 2)]⟩

/-- Length of the pipeline's intermediate table: the join keeps one row per
input row. -/
theorem joinFfill_length (rows : List Row) :
    ∀ st, (joinFfill st rows).length = rows.length := by
  induction rows with
  | nil => intro st; rfl
  | cons r rs ih => intro st; simp [joinFfill, ih]

/-- The pipeline started with a fully populated metadata carry agrees with the
reference fold started with the same current metadata. -/
theorem dropna_joinFfill_some (ls : List Line) :
    ∀ s t a m, dropna (joinFfill ⟨some s, some t, some a, some m⟩
        (ls.map Line.toRow)) = scanRef (some (s, t, a, m)) ls := by
  induction ls with
  | nil => intro s t a m; rfl
  | cons l ls ih =>
    intro s t a m
    cases l with
    | meta s' t' a' m' =>
      have h := ih s' t' a' m'
      simp only [dropna] at h ⊢
      simp [Line.toRow, joinFfill, ffillStep, upd, List.filter_cons,
        rowComplete, scanRef, h]
    | stat ad de f =>
      have h := ih s t a m
      simp only [dropna] at h ⊢
      simp [Line.toRow, joinFfill, ffillStep, upd, List.filter_cons,
        rowComplete, scanRef, h]

/-- The pipeline equals the reference fold: forward-filling the metadata
columns, joining, and dropping incomplete rows is the stateful scan that
carries the last metadata seen and emits one record per reachable statistic
line. -/
theorem reconcileLines_eq_scanRef (ls : List Line) :
    reconcileLines ls = scanRef none ls := by
  induction ls with
  | nil => rfl
  | cons l ls ih =>
    cases l with
    | meta s t a m =>
      have h := dropna_joinFfill_some ls s t a m
      show dropna (joinFfill initMeta (Line.toRow (.meta s t a m) ::
        ls.map Line.toRow)) = _
      simp only [dropna] at h ⊢
      simp [Line.toRow, joinFfill, ffillStep, upd, initMeta,
        List.filter_cons, rowComplete, scanRef, h]
    | stat ad de f =>
      have h : reconcileLines ls = scanRef none ls := ih
      show dropna (joinFfill initMeta (Line.toRow (.stat ad de f) ::
        ls.map Line.toRow)) = _
      simp only [reconcileLines, reconcile, dropna, initMeta] at h ⊢
      simp [Line.toRow, joinFfill, ffillStep, upd, initMeta,
        List.filter_cons, rowComplete, scanRef, h]

/-- The metadata carry distributes over list append. -/
theorem curMeta_append (xs : List Line) :
    ∀ cur ys, curMeta cur (xs ++ ys) = curMeta (curMeta cur xs) ys := by
  induction xs with
  | nil => intro cur ys; rfl
  | cons x xs ih => intro cur ys; simp [curMeta, ih]

/-- The reference fold splits over list append, the tail being scanned with
the metadata carried out of the head. -/
theorem scanRef_append (xs : List Line) :
    ∀ cur ys, scanRef cur (xs ++ ys) = scanRef cur xs ++
      scanRef (curMeta cur xs) ys := by
  induction xs with
  | nil => intro cur ys; rcases cur with _ | ⟨s, t, a, m⟩ <;> rfl
  | cons x xs ih =>
    intro cur ys
    cases x with
    | meta s t a m => simp [scanRef, curMeta, updMeta, ih]
    | stat ad de f =>
      match cur with
      | none => simp [scanRef, curMeta, updMeta, ih]
      | some (s, t, a, m) => simp [scanRef, curMeta, updMeta, ih]

/-- Statistic lines do not change the metadata carry. -/
theorem curMeta_allStat (ms : List Line) :
    ∀ cur, (∀ l ∈ ms, l.isStat = true) → curMeta cur ms = cur := by
  induction ms with
  | nil => intro cur _; rfl
  | cons l ls ih =>
    intro cur h
    cases l with
    | meta s t a m => simpa [Line.isStat] using h (.meta s t a m) (by simp)
    | stat ad de f =>
      simp only [curMeta, updMeta]
      exact ih cur fun l hl => h l (by simp [hl])

/-- With no metadata available, statistic lines emit nothing. -/
theorem scanRef_none_allStat (ms : List Line) :
    (∀ l ∈ ms, l.isStat = true) → scanRef none ms = [] := by
  induction ms with
  | nil => intro _; rfl
  | cons l ls ih =>
    intro h
    cases l with
    | meta s t a m => simpa [Line.isStat] using h (.meta s t a m) (by simp)
    | stat ad de f =>
      simp only [scanRef]
      exact ih fun l hl => h l (by simp [hl])

/-- Metadata lines emit nothing, whatever the carry. -/
theorem scanRef_allMeta (ms : List Line) :
    ∀ cur, (∀ l ∈ ms, l.isMeta = true) → scanRef cur ms = [] := by
  induction ms with
  | nil => intro cur _; rcases cur with _ | ⟨s, t, a, m⟩ <;> rfl
  | cons l ls ih =>
    intro cur h
    cases l with
    | stat ad de f => simpa [Line.isMeta] using h (.stat ad de f) (by simp)
    | meta s t a m =>
      simp only [scanRef]
      exact ih _ fun l hl => h l (by simp [hl])

/-- With a metadata carry available, the emitted file cells are exactly the
statistic lines' cells, in order. -/
theorem scanRef_some_proj (ls : List Line) :
    ∀ s t a m, (scanRef (some (s, t, a, m)) ls).map fileFields =
      (ls.filter fun l => l.isStat).map Line.statFields := by
  induction ls with
  | nil => intro s t a m; rfl
  | cons l ls ih =>
    intro s t a m
    cases l with
    | meta s' t' a' m' =>
      simp [scanRef, List.filter_cons, Line.isStat, ih]
    | stat ad de f =>
      simp [scanRef, List.filter_cons, Line.isStat, Line.statFields,
        fileFields, ih]

/-- Before the first metadata line nothing is emitted; from it on, the
emitted file cells are exactly the statistic lines' cells, in order. -/
theorem scanRef_none_proj (ls : List Line) :
    (scanRef none ls).map fileFields =
      ((ls.dropWhile fun l => !l.isMeta).filter fun l => l.isStat).map
        Line.statFields := by
  induction ls with
  | nil => rfl
  | cons l ls ih =>
    cases l with
    | meta s t a m =>
      simp [scanRef, List.dropWhile_cons, Line.isMeta, List.filter_cons,
        Line.isStat, scanRef_some_proj]
    | stat ad de f =>
      simpa [scanRef, List.dropWhile_cons, Line.isMeta] using ih

/-- C1: for every input sequence of lines, `reconcile` returns exactly one
output record per statistic line that appears after the first metadata line
(so its length is the number of such lines), and the output records carry
those statistic lines' file cells in the same relative order as the source
statistic lines occur in the input. -/
theorem c1_one_record_per_stat (ls : List Line) :
    (reconcileLines ls).map fileFields =
      ((ls.dropWhile fun l => !l.isMeta).filter fun l => l.isStat).map
        Line.statFields ∧
    (reconcileLines ls).length =
      ((ls.dropWhile fun l => !l.isMeta).filter fun l => l.isStat).length := by
  have h : (reconcileLines ls).map fileFields =
      ((ls.dropWhile fun l => !l.isMeta).filter fun l => l.isStat).map
        Line.statFields := by
    rw [reconcileLines_eq_scanRef]; exact scanRef_none_proj ls
  refine ⟨h, ?_⟩
  have := congrArg List.length h
  simpa [List.length_map] using this

/-- C2: the output record produced for a statistic line equals its file cells
combined with the four metadata cells of the nearest preceding metadata line
(the one with no further metadata line between them), and it sits between the
records of the preceding lines and those of the remaining lines. -/
theorem c2_nearest_preceding_metadata (pre mid post : List Line)
    (s t a m ad de f : Val) (hmid : ∀ l ∈ mid, l.isStat = true) :
    reconcileLines (pre ++ Line.meta s t a m ::
        (mid ++ Line.stat ad de f :: post)) =
      reconcileLines (pre ++ Line.meta s t a m :: mid) ++
        ⟨some ad, some de, some f, some s, some t, some a, some m⟩ ::
          reconcileLines (Line.meta s t a m :: post) := by
  rw [reconcileLines_eq_scanRef, reconcileLines_eq_scanRef,
    reconcileLines_eq_scanRef]
  have hsplit : pre ++ Line.meta s t a m :: (mid ++ Line.stat ad de f :: post)
      = (pre ++ Line.meta s t a m :: mid) ++ (Line.stat ad de f :: post) := by
    simp
  rw [hsplit, scanRef_append, curMeta_append]
  have hc : curMeta (curMeta none pre) (Line.meta s t a m :: mid) =
      some (s, t, a, m) := by
    simp only [curMeta, updMeta]
    exact curMeta_allStat mid _ hmid
  rw [hc]
  simp [scanRef]

/-- Witness for C2 at the concrete input `[M(1,100,A,x), S(+2,-1,f.txt)]`. -/
theorem c2_witness :
    (∀ l ∈ ([] : List Line), l.isStat = true) ∧
    reconcileLines ([] ++ Line.meta (.int 1) (.int 100) (.str "A") (.str "x")
        :: ([] ++ Line.stat (.int 2) (.int 1) (.str "f.txt") :: [])) =
      reconcileLines ([] ++ Line.meta (.int 1) (.int 100) (.str "A")
          (.str "x") :: []) ++
        ⟨some (.int 2), some (.int 1), some (.str "f.txt"), some (.int 1),
          some (.int 100), some (.str "A"), some (.str "x")⟩ ::
          reconcileLines (Line.meta (.int 1) (.int 100) (.str "A") (.str "x")
            :: []) :=
  ⟨by simp, c2_nearest_preceding_metadata [] [] [] _ _ _ _ _ _ _ (by simp)⟩

/-- C3: every record emitted by `reconcile` is fully populated: none of its
seven cells is null.  This holds for arbitrary input rows, whatever their
null pattern. -/
theorem c3_no_null_fields (rows : List Row) (r : Row)
    (hr : r ∈ reconcile rows) :
    r.additions ≠ none ∧ r.deletions ≠ none ∧ r.filename ≠ none ∧
    r.sha ≠ none ∧ r.timestamp ≠ none ∧ r.author ≠ none ∧
    r.message ≠ none := by
  have hc : rowComplete r = true :=
    (List.mem_filter.mp (by simpa [reconcile, dropna] using hr)).2
  simp only [rowComplete, Bool.and_eq_true, Option.isSome_iff_ne_none] at hc
  tauto

/-- Witness for C3 at a concrete fully populated row. -/
theorem c3_witness :
    fullRow ∈ reconcile [fullRow] ∧ fullRow.additions ≠ none :=
  ⟨by decide, (c3_no_null_fields [fullRow] fullRow (by decide)).1⟩

/-- C4: statistic lines occurring before the first metadata line produce no
output record and cause no failure: the result is exactly the result of
processing the remaining lines. -/
theorem c4_leading_stats_dropped (gs rest : List Line)
    (h : ∀ l ∈ gs, l.isStat = true) :
    reconcileLines (gs ++ rest) = reconcileLines rest := by
  rw [reconcileLines_eq_scanRef, reconcileLines_eq_scanRef, scanRef_append,
    curMeta_allStat gs none h, scanRef_none_allStat gs h]
  simp

/-- Witness for C4: a leading `S(+1,-1,"early.txt")` is dropped entirely. -/
theorem c4_witness :
    (∀ l ∈ [Line.stat (.int 1) (.int 1) (.str "early.txt")],
      l.isStat = true) ∧
    reconcileLines ([Line.stat (.int 1) (.int 1) (.str "early.txt")] ++
        exampleLines) = reconcileLines exampleLines :=
  ⟨by decide, c4_leading_stats_dropped _ _ (by decide)⟩

/-- C5: no metadata line produces an output record of its own (an input of
metadata lines only yields an empty output), and in a consecutive run of
metadata lines only the last one is inherited: deleting the earlier lines of
the run changes nothing in the output. -/
theorem c5_metadata_lines_emit_nothing :
    (∀ ms : List Line, (∀ l ∈ ms, l.isMeta = true) →
      reconcileLines ms = []) ∧
    (∀ (pre ms : List Line) (s t a m : Val) (post : List Line),
      (∀ l ∈ ms, l.isMeta = true) →
      reconcileLines (pre ++ (ms ++ Line.meta s t a m :: post)) =
        reconcileLines (pre ++ Line.meta s t a m :: post)) := by
  constructor
  · intro ms h
    rw [reconcileLines_eq_scanRef]
    exact scanRef_allMeta ms none h
  · intro pre ms s t a m post h
    rw [reconcileLines_eq_scanRef, reconcileLines_eq_scanRef,
      scanRef_append pre, scanRef_append pre]
    congr 1
    rw [scanRef_append ms, scanRef_allMeta ms _ h]
    simp [scanRef]

/-- Witness for C5: a run `[M(9,9,Z,z), M(1,100,A,x)]` behaves as the last
line alone, and a metadata-only input emits nothing. -/
theorem c5_witness :
    reconcileLines [Line.meta (.int 1) (.int 2) (.str "A") (.str "x")] = [] ∧
    reconcileLines ([] ++ ([Line.meta (.int 9) (.int 9) (.str "Z") (.str "z")]
        ++ Line.meta (.int 1) (.int 100) (.str "A") (.str "x") ::
          [Line.stat (.int 2) (.int 1) (.str "f.txt")])) =
      reconcileLines ([] ++ Line.meta (.int 1) (.int 100) (.str "A")
        (.str "x") :: [Line.stat (.int 2) (.int 1) (.str "f.txt")]) :=
  ⟨c5_metadata_lines_emit_nothing.1 _ (by decide),
   c5_metadata_lines_emit_nothing.2 [] _ _ _ _ _ _ (by decide)⟩

/-- C7: on arbitrary rows with arbitrary null patterns (covering malformed or
out-of-order lines) the pipeline never fails: it returns a sublist of the
forward-filled table (degrading bad rows to dropped rows, adding nothing),
every returned row is fully populated, and no more rows come out than went
in. -/
theorem c7_total_graceful (rows : List Row) :
    List.Sublist (reconcile rows) (joinFfill initMeta rows) ∧
    (∀ r ∈ reconcile rows, rowComplete r = true) ∧
    (reconcile rows).length ≤ rows.length := by
  refine ⟨List.filter_sublist _,
    fun r hr => (List.mem_filter.mp (by simpa [reconcile, dropna] using hr)).2,
    ?_⟩
  calc (reconcile rows).length ≤ (joinFfill initMeta rows).length :=
        List.length_filter_le _ _
    _ = rows.length := joinFfill_length rows initMeta

/-- Witness for C7 at a concrete one-row input. -/
theorem c7_witness :
    fullRow ∈ reconcile [fullRow] ∧ rowComplete fullRow = true :=
  ⟨by decide, (c7_total_graceful [fullRow]).2.1 fullRow (by decide)⟩

/-- Forward fill acts on each metadata column separately: cell `i` of a
filled column is the last populated value of that same column among rows
`0..i`, starting from the carried value, whatever the other columns hold. -/
theorem joinFfill_col (rows : List Row) :
    ∀ st i, i < rows.length →
      ((joinFfill st rows).map fun r => r.sha)[i]? =
        some (lastSome st.sha ((rows.take (i+1)).map fun r => r.sha)) ∧
      ((joinFfill st rows).map fun r => r.timestamp)[i]? =
        some (lastSome st.timestamp
          ((rows.take (i+1)).map fun r => r.timestamp)) ∧
      ((joinFfill st rows).map fun r => r.author)[i]? =
        some (lastSome st.author ((rows.take (i+1)).map fun r => r.author)) ∧
      ((joinFfill st rows).map fun r => r.message)[i]? =
        some (lastSome st.message
          ((rows.take (i+1)).map fun r => r.message)) := by
  induction rows with
  | nil => intro st i h; exact absurd h (by simp)
  | cons r rs ih =>
    intro st i h
    cases i with
    | zero => simp [joinFfill, ffillStep, lastSome]
    | succ n =>
      have hn : n < rs.length := by simpa using h
      have hrec := ih (ffillStep st r) n hn
      simpa [joinFfill, lastSome, ffillStep] using hrec

/-- C10: forward-filling of metadata is performed independently per column,
not per metadata line: each filled metadata cell is the nearest earlier
populated cell of its own column (last value of the column over the prefix),
and on a concrete input whose second metadata row lacks the author cell the
single output record mixes cells of the two metadata rows. -/
theorem c10_ffill_per_column :
    (∀ (rows : List Row) (i : Nat), i < rows.length →
      ((joinFfill initMeta rows).map fun r => r.sha)[i]? =
        some (lastSome none ((rows.take (i+1)).map fun r => r.sha)) ∧
      ((joinFfill initMeta rows).map fun r => r.timestamp)[i]? =
        some (lastSome none ((rows.take (i+1)).map fun r => r.timestamp)) ∧
      ((joinFfill initMeta rows).map fun r => r.author)[i]? =
        some (lastSome none ((rows.take (i+1)).map fun r => r.author)) ∧
      ((joinFfill initMeta rows).map fun r => r.message)[i]? =
        some (lastSome none ((rows.take (i+1)).map fun r => r.message))) ∧
    reconcile [mixMetaFull, mixMetaGap, mixStat] =
      [⟨some (.int 3), some (.int 4), some (.str "pom.xml"),
        some (.str "sha2"), some (.int 200), some (.str "Ann"),
        some (.str "second")⟩] :=
  ⟨fun rows i h => joinFfill_col rows initMeta i h, rfl⟩

/-- Witness for C10 at a concrete one-row input and index 0. -/
theorem c10_witness :
    0 < [fullRow].length ∧
    ((joinFfill initMeta [fullRow]).map fun r => r.sha)[0]? =
      some (lastSome none (([fullRow].take 1).map fun r => r.sha)) :=
  ⟨by decide, (c10_ffill_per_column.1 [fullRow] 0 (by decide)).1⟩

/-- Every record the reference fold emits inherits its timestamp cell from
the carried metadata or from a metadata line of the remaining input. -/
theorem scanRef_timestamp (ls : List Line) :
    ∀ cur r, r ∈ scanRef cur ls →
      (∃ q : Val × Val × Val × Val, cur = some q ∧
        r.timestamp = some q.2.1) ∨
      (∃ s t a m, Line.meta s t a m ∈ ls ∧ r.timestamp = some t) := by
  induction ls with
  | nil =>
    intro cur r hr
    rcases cur with _ | ⟨s, t, a, m⟩ <;> simp [scanRef] at hr
  | cons l ls ih =>
    intro cur r hr
    cases l with
    | meta s t a m =>
      have hr' : r ∈ scanRef (some (s, t, a, m)) ls := by
        simpa [scanRef] using hr
      rcases ih _ r hr' with ⟨q, hq, hts⟩ | ⟨s', t', a', m', hmem, hts⟩
      · have hqe : q = (s, t, a, m) := (Option.some_inj.mp hq).symm
        subst hqe
        exact Or.inr ⟨s, t, a, m, by simp, hts⟩
      · exact Or.inr ⟨s', t', a', m', by simp [hmem], hts⟩
    | stat ad de f =>
      rcases cur with _ | ⟨s, t, a, m⟩
      · have hr' : r ∈ scanRef none ls := by simpa [scanRef] using hr
        rcases ih _ r hr' with ⟨q, hq, _⟩ | ⟨s', t', a', m', hmem, hts⟩
        · exact absurd hq (by simp)
        · exact Or.inr ⟨s', t', a', m', by simp [hmem], hts⟩
      · have hr' : r = (⟨some ad, some de, some f, some s, some t, some a,
            some m⟩ : Row) ∨ r ∈ scanRef (some (s, t, a, m)) ls := by
          simpa [scanRef] using hr
        rcases hr' with rfl | hr'
        · exact Or.inl ⟨(s, t, a, m), rfl, rfl⟩
        · rcases ih _ r hr' with ⟨q, hq, hts⟩ | ⟨s', t', a', m', hmem, hts⟩
          · exact Or.inl ⟨q, hq, hts⟩
          · exact Or.inr ⟨s', t', a', m', by simp [hmem], hts⟩

/-- C8, counterexample: the claim that the timestamp carried into the output
is "not coerced to a non-integer representation" fails on the code.  On the
specification's own example input the output is non-empty, yet the timestamp
column of the loaded table — the column every later step reuses — contains
missing cells (one per statistic line), so `read_csv` stores it as float64,
not as an integer dtype, exactly as the notebook's recorded output
(`1.498817e+09`) shows. -/
theorem c8_timestamp_counterexample :
    reconcileLines exampleLines ≠ [] ∧
    intColDtype (tsCol exampleLines) = Dtype.float64 ∧
    Dtype.float64 ≠ Dtype.int64 := by
  refine ⟨by decide, by decide, by decide⟩

/-- C8, amended: whenever the input contains a statistic line the timestamp
column is stored in the float64 (non-integer) representation, but the
timestamp value of every output record is carried unchanged — still the exact
integer seconds — from a metadata line of the input. -/
theorem c8_timestamp_amended (ls : List Line) :
    ((∃ l ∈ ls, l.isStat = true) →
      intColDtype (tsCol ls) = Dtype.float64) ∧
    (∀ r ∈ reconcileLines ls, ∃ s t a m,
      Line.meta s t a m ∈ ls ∧ r.timestamp = some t) := by
  constructor
  · rintro ⟨l, hl, hstat⟩
    cases l with
    | meta s t a m => simp [Line.isStat] at hstat
    | stat ad de f =>
      have hmem : (none : Option Int) ∈ tsCol ls :=
        List.mem_map.mpr ⟨Line.toRow (.stat ad de f),
          List.mem_map.mpr ⟨.stat ad de f, hl, rfl⟩, rfl⟩
      rw [intColDtype, if_pos (List.any_eq_true.mpr ⟨none, hmem, rfl⟩)]
  · intro r hr
    rw [reconcileLines_eq_scanRef] at hr
    rcases scanRef_timestamp ls none r hr with ⟨q, hq, _⟩ | h
    · exact absurd hq (by simp)
    · exact h

/-- Witness for C8's amended theorem at the example input. -/
theorem c8_witness :
    ((∃ l ∈ exampleLines, l.isStat = true) ∧
      intColDtype (tsCol exampleLines) = Dtype.float64) ∧
    ((⟨some (.int 2), some (.int 1), some (.str "f.txt"), some (.int 1),
        some (.int 100), some (.str "A"), some (.str "x")⟩ : Row) ∈
      reconcileLines exampleLines ∧
    ∃ s t a m, Line.meta s t a m ∈ exampleLines ∧
      (⟨some (.int 2), some (.int 1), some (.str "f.txt"), some (.int 1),
        some (.int 100), some (.str "A"), some (.str "x")⟩ : Row).timestamp =
        some t) :=
  ⟨⟨by decide, (c8_timestamp_amended exampleLines).1 (by decide)⟩,
   by decide, (c8_timestamp_amended exampleLines).2 _ (by decide)⟩

/-- C6: on the concrete input `[M(1,100,A,"x"), S(+2,-1,"f.txt"),
M(2,200,B,"y"), S(+5,-0,"g.txt")]` the pipeline returns exactly the two
records `(2,1,"f.txt",1,100,A,"x")` and `(5,0,"g.txt",2,200,B,"y")`, in that
order. -/
theorem c6_concrete_example :
    reconcileLines exampleLines =
      [⟨some (.int 2), some (.int 1), some (.str "f.txt"),
        some (.int 1), some (.int 100), some (.str "A"), some (.str "x")⟩,
       ⟨some (.int 5), some (.int 0), some (.str "g.txt"),
        some (.int 2), some (.int 200), some (.str "B"), some (.str "y")⟩] :=
  rfl

/-- Removing one occurrence of a member yields a permutation witness. -/
theorem removeOne_perm (l : List (Nat × Nat)) :
    ∀ x ∈ l, l.Perm (x :: removeOne l x) := by
  induction l with
  | nil => intro x hx; simp at hx
  | cons e es ih =>
    intro x hx
    by_cases hex : e = x
    · subst hex; simp [removeOne]
    · have hx' : x ∈ es := by
        rcases List.mem_cons.mp hx with h | h
        · exact absurd h.symm hex
        · exact h
      simp only [removeOne, if_neg hex]
      exact (List.Perm.cons e (ih x hx')).trans (List.Perm.swap x e _)

/-- Soundness of the chain search: a successful search yields a non-empty
chain drawn, without reuse, from the available relationships. -/
theorem chainSearchF_sound :
    ∀ fuel avail a b, chainSearchF fuel avail a b = true →
      ∃ c, c ≠ [] ∧ isChain c a b ∧ List.Subperm c avail := by
  intro fuel
  induction fuel with
  | zero => intro avail a b h; simp [chainSearchF] at h
  | succ n ih =>
    intro avail a b h
    rw [chainSearchF] at h
    obtain ⟨e, he, hpred⟩ := List.any_eq_true.mp h
    simp only [Bool.and_eq_true, Bool.or_eq_true, decide_eq_true_eq] at hpred
    obtain ⟨ha, hrest⟩ := hpred
    rcases hrest with hb | hcont
    · exact ⟨[e], by simp, ⟨ha, hb⟩, (List.singleton_sublist.mpr he).subperm⟩
    · obtain ⟨c, hne, hch, hsp⟩ := ih (removeOne avail e) e.2 b hcont
      refine ⟨e :: c, by simp, ⟨ha, hch⟩, ?_⟩
      exact ((List.subperm_cons e).mpr hsp).trans
        ((removeOne_perm avail e he).symm.subperm)

/-- Completeness of the chain search: any non-empty chain drawn without reuse
from the available relationships is found, provided the fuel covers the
number of available relationships. -/
theorem chainSearchF_complete :
    ∀ (c : List (Nat × Nat)) (a : Nat) (avail : List (Nat × Nat))
      (fuel b : Nat), avail.length ≤ fuel → c ≠ [] → isChain c a b →
      List.Subperm c avail → chainSearchF fuel avail a b = true := by
  intro c
  induction c with
  | nil => intro a avail fuel b _ hne _ _; exact absurd rfl hne
  | cons e c ih =>
    intro a avail fuel b hfuel _ hch hsp
    obtain ⟨ha, hch'⟩ := hch
    have he : e ∈ avail := hsp.subset (by simp)
    have hperm := removeOne_perm avail e he
    cases fuel with
    | zero =>
      have hz : avail = [] := List.length_eq_zero.mp (Nat.le_zero.mp hfuel)
      subst hz; simp at he
    | succ n =>
      rw [chainSearchF]
      refine List.any_eq_true.mpr ⟨e, he, ?_⟩
      simp only [Bool.and_eq_true, Bool.or_eq_true, decide_eq_true_eq]
      refine ⟨ha, ?_⟩
      by_cases hc : c = []
      · subst hc; left; simpa [isChain] using hch'
      · right
        have hsp' : List.Subperm c (removeOne avail e) :=
          (List.subperm_cons e).mp (hsp.trans hperm.subperm)
        have hlen : (removeOne avail e).length ≤ n := by
          have hl := hperm.length_eq
          simp only [List.length_cons] at hl
          omega
        exact ih e.2 (removeOne avail e) n b hlen hc hch' hsp'

/-- The chain search of `matchPattern`, run on the relationships left after
consuming the one to the database method, finds exactly the chains that
together with that relationship fit inside the `INVOKES` multiset. -/
theorem chainSearch_subperm_iff (g : Graph) (m dbM : Nat)
    (hmem : (m, dbM) ∈ g.invokes) :
    chainSearchF g.invokes.length (removeOne g.invokes (m, dbM)) m m = true ↔
      ∃ c, c ≠ [] ∧ isChain c m m ∧
        List.Subperm ((m, dbM) :: c) g.invokes := by
  have hperm := removeOne_perm g.invokes (m, dbM) hmem
  constructor
  · intro h
    obtain ⟨c, hne, hch, hsp⟩ := chainSearchF_sound _ _ _ _ h
    exact ⟨c, hne, hch,
      ((List.subperm_cons _).mpr hsp).trans hperm.symm.subperm⟩
  · rintro ⟨c, hne, hch, hsp⟩
    have hsp' : List.Subperm c (removeOne g.invokes (m, dbM)) :=
      (List.subperm_cons _).mp (hsp.trans hperm.subperm)
    refine chainSearchF_complete c m _ g.invokes.length m ?_ hne hch hsp'
    have hl := hperm.length_eq
    simp only [List.length_cons] at hl
    omega

/-- Membership in a conditional singleton list. -/
theorem mem_ite_singleton {α : Type} (p x : α) (c : Prop) [Decidable c] :
    (p ∈ if c then [x] else ([] : List α)) ↔ c ∧ p = x := by
  by_cases h : c <;> simp [h]

/-- C9, counterexample: the claim describes the returned set without Cypher's
relationship-uniqueness rule, and fails on the code.  In `g0`, `loadParent`
invokes itself transitively (via `loadThing`) and directly invokes the
`Database`-declared method `loadThing`, so the claim says the pair
`("loadParent", "Database.loadThing")` is returned; but the only
self-reaching chain of `loadParent` already consumes the single `INVOKES`
relationship to `loadThing`, which the pattern must traverse again, so the
query returns nothing. -/
theorem c9_counterexample :
    claimPair g0 ("loadParent", "Database.loadThing") ∧
    ("loadParent", "Database.loadThing") ∉ queryPairs g0 := by
  constructor
  · refine ⟨⟨1, true, false, "loadParent"⟩, ⟨2, true, false, "loadThing"⟩,
      ⟨3, false, true, "Database"⟩, by simp [g0], by simp [g0], by simp [g0],
      rfl, rfl, rfl, rfl, ?_, by simp [g0], by simp [g0], rfl⟩
    exact @Relation.TransGen.head Nat (invokesStep g0) 1 2 1
      (by simp [invokesStep, g0])
      (Relation.TransGen.single (by simp [invokesStep, g0]))
  · decide

/-- C9, amended: the query returns exactly the pairs described by
`patternPair`: as the claim, but the self-invocation chain is made of
pairwise-distinct `INVOKES` relationships and does not reuse the relationship
consumed to reach the database method. -/
theorem c9_call_graph_query (g : Graph) (p : String × String) :
    p ∈ queryPairs g ↔ patternPair g p := by
  simp only [queryPairs, List.mem_flatMap, mem_ite_singleton, patternPair]
  constructor
  · rintro ⟨m, hm, dbM, hdbM, dbC, hdbC, hmatch, rfl⟩
    simp only [matchPattern, Bool.and_eq_true, decide_eq_true_eq] at hmatch
    obtain ⟨⟨⟨⟨⟨⟨hm1, hm2⟩, hm3⟩, hname⟩, hinv⟩, hdecl⟩, hchain⟩ := hmatch
    exact ⟨m, dbM, dbC, hm, hdbM, hdbC, hm1, hm2, hm3, hname, hinv, hdecl,
      (chainSearch_subperm_iff g m.id dbM.id hinv).mp hchain, rfl⟩
  · rintro ⟨m, dbM, dbC, hm, hdbM, hdbC, hm1, hm2, hm3, hname, hinv, hdecl,
      hchain, rfl⟩
    refine ⟨m, hm, dbM, hdbM, dbC, hdbC, ?_, rfl⟩
    simp only [matchPattern, Bool.and_eq_true, decide_eq_true_eq]
    exact ⟨⟨⟨⟨⟨⟨hm1, hm2⟩, hm3⟩, hname⟩, hinv⟩, hdecl⟩,
      (chainSearch_subperm_iff g m.id dbM.id hinv).mpr hchain⟩
